import Mathlib

/-!
Verification of the claims-embedding core of `wascap` (`src/wasm.rs`).

The development shallowly embeds the code of `src/wasm.rs` together with
models of its collaborators:

* the WebAssembly container codec (the `parity_wasm` crate): modules are
  parsed from `\x00asm` + version `1` followed by sections, each a one-byte
  id, a LEB128 payload size, and the payload; custom sections (id 0) carry a
  LEB128-length-prefixed UTF-8 name.  Typed (non-custom) section payloads are
  kept opaque, and the 32-bit cap on LEB128 sizes is abstracted to
  arbitrary naturals; neither abstraction is observable by the claims
  checked here.  `set_custom_section` replaces the payload of the first
  section with the given name in place (appending a fresh section at the end
  only when none exists) and `clear_custom_section` removes only the first
  matching section, exactly as in `parity_wasm`.
* the SHA-256 digest (the `ring` crate): implemented in full (FIPS 180-4)
  as an executable function on byte lists; the streaming `Context` is
  modelled extensionally as the list of bytes fed so far, finalized by the
  one-shot hash.
* `HEXUPPER` of `data_encoding`: two uppercase hex characters per byte.
* Rust's `String::from_utf8`: a strict UTF-8 validator over byte lists
  (a Rust `String` is modelled as its list of bytes).

Machine bytes are naturals; arithmetic that the code performs on 32-bit
words is taken modulo `2 ^ 32` explicitly.
-/

/-- A byte buffer: Rust `Vec<u8>` / `&[u8]`, modelled as a list of naturals
(each entry a byte value below 256 in every real buffer). -/
abbrev Bytes := List Nat

/-- The error kinds of `crate::errors::ErrorKind` that `src/wasm.rs` can
surface (spec section 7). -/
inductive ErrorKind where
  | ParseError
  | SerializationError
  | EncodingError
  | TokenDecodeError
  | InvalidModuleHash
  | SigningError
  | IoError
deriving DecidableEq

deriving instance DecidableEq for Except

/-- Rust `Result<T, crate::errors::Error>` specialised to the error kinds. -/
abbrev WResult (α : Type) := Except ErrorKind α

/-- Extract the payload of an `ok` result, with a default for errors. -/
def getOk {α : Type} (r : WResult α) (d : α) : α :=
  match r with
  | .ok x => x
  | .error _ => d

/-- Every entry of the byte list is an actual byte value. -/
def allLt256 (bs : Bytes) : Bool := bs.all (fun b => b < 256)

/-- A UTF-8 continuation byte (`10xxxxxx`). -/
def utf8Cont (b : Nat) : Bool := 128 ≤ b && b ≤ 191

/-- One step of the strict UTF-8 acceptance automaton.  State 0 accepts;
states 1-7 await continuation bytes (with the restricted ranges after the
lead bytes `E0`, `ED`, `F0` and `F4` that exclude overlong forms,
surrogates and code points above `10FFFF`); state 9 is the reject sink. -/
def utf8Step (st b : Nat) : Nat :=
  if st = 0 then
    if b ≤ 127 then 0
    else if 194 ≤ b && b ≤ 223 then 1
    else if b = 224 then 2
    else if (225 ≤ b && b ≤ 236) || b = 238 || b = 239 then 3
    else if b = 237 then 4
    else if b = 240 then 5
    else if 241 ≤ b && b ≤ 243 then 6
    else if b = 244 then 7
    else 9
  else if st = 1 then if utf8Cont b then 0 else 9
  else if st = 2 then if 160 ≤ b && b ≤ 191 then 1 else 9
  else if st = 3 then if utf8Cont b then 1 else 9
  else if st = 4 then if 128 ≤ b && b ≤ 159 then 1 else 9
  else if st = 5 then if 144 ≤ b && b ≤ 191 then 3 else 9
  else if st = 6 then if utf8Cont b then 3 else 9
  else if st = 7 then if 128 ≤ b && b ≤ 143 then 3 else 9
  else 9

/-- Strict UTF-8 validity of a byte list, as checked by Rust's
`String::from_utf8`: the automaton, run from the start state, ends in the
accepting state. -/
def utf8Valid (bs : Bytes) : Bool := bs.foldl utf8Step 0 == 0

/-- Model of Rust `String::from_utf8` on a byte buffer: the same bytes on
success, an `EncodingError` on invalid UTF-8 (the `?` conversion in
`extract_claims`). -/
def string_from_utf8 (bs : Bytes) : WResult Bytes :=
  if utf8Valid bs then .ok bs else .error .EncodingError

/-- Unsigned LEB128 decoding: least-significant 7-bit group first, high bit
of a byte marks continuation.  Returns the value and the rest of the input. -/
def lebDecode : Bytes → Option (Nat × Bytes)
  | [] => none
  | b :: rest =>
    if b < 128 then some (b, rest)
    else
      match lebDecode rest with
      | none => none
      | some (v, r) => some ((b - 128) + 128 * v, r)

/-- Minimal unsigned LEB128 encoding, driven by explicit fuel (the fuel is
always sufficient when it is at least the encoded value). -/
def lebEncodeAux : Nat → Nat → Bytes
  | 0, n => [n % 128]
  | fuel + 1, n => if n < 128 then [n] else (n % 128 + 128) :: lebEncodeAux fuel (n / 128)

/-- Minimal unsigned LEB128 encoding of a natural number. -/
def lebEncode (n : Nat) : Bytes := lebEncodeAux n n

/-- ASCII code of the uppercase hexadecimal digit for a nibble. -/
def hexDigitChar (n : Nat) : Nat := if n < 10 then 48 + n else 55 + n

/-- `data_encoding::HEXUPPER.encode`: two uppercase hex characters per
byte, most significant nibble first, no separators. -/
def hexUpperEncode : Bytes → Bytes
  | [] => []
  | b :: rest => hexDigitChar (b / 16) :: hexDigitChar (b % 16) :: hexUpperEncode rest

/-- Value of an ASCII character as an uppercase hexadecimal digit. -/
def hexDigitVal (c : Nat) : Option Nat :=
  if 48 ≤ c && c ≤ 57 then some (c - 48)
  else if 65 ≤ c && c ≤ 70 then some (c - 55)
  else none

/-- Inverse of `hexUpperEncode`; fails on odd length or non-hex characters. -/
def hexDecode : Bytes → Option Bytes
  | [] => some []
  | [_] => none
  | c1 :: c2 :: rest =>
    match hexDigitVal c1, hexDigitVal c2, hexDecode rest with
    | some h, some l, some bs => some ((h * 16 + l) :: bs)
    | _, _, _ => none

/-- The 32-bit modulus. -/
def M32 : Nat := 4294967296

/-- Right rotation of a 32-bit word. -/
def rotr (k x : Nat) : Nat := ((x >>> k) ||| (x <<< (32 - k))) % M32

/-- SHA-256 `Ch` function. -/
def shaCh (e f g : Nat) : Nat := (e &&& f) ^^^ ((e ^^^ 4294967295) &&& g)

/-- SHA-256 `Maj` function. -/
def shaMaj (a b c : Nat) : Nat := (a &&& b) ^^^ (a &&& c) ^^^ (b &&& c)

/-- SHA-256 big sigma 0. -/
def bigSigma0 (x : Nat) : Nat := rotr 2 x ^^^ rotr 13 x ^^^ rotr 22 x

/-- SHA-256 big sigma 1. -/
def bigSigma1 (x : Nat) : Nat := rotr 6 x ^^^ rotr 11 x ^^^ rotr 25 x

/-- SHA-256 small sigma 0. -/
def smallSigma0 (x : Nat) : Nat := rotr 7 x ^^^ rotr 18 x ^^^ (x >>> 3)

/-- SHA-256 small sigma 1. -/
def smallSigma1 (x : Nat) : Nat := rotr 17 x ^^^ rotr 19 x ^^^ (x >>> 10)

/-- The 64 SHA-256 round constants. -/
def K256 : List Nat :=
  [1116352408, 1899447441, 3049323471, 3921009573, 961987163,
   1508970993, 2453635748, 2870763221, 3624381080, 310598401,
   607225278, 1426881987, 1925078388, 2162078206, 2614888103,
   3248222580, 3835390401, 4022224774, 264347078, 604807628,
   770255983, 1249150122, 1555081692, 1996064986, 2554220882,
   2821834349, 2952996808, 3210313671, 3336571891, 3584528711,
   113926993, 338241895, 666307205, 773529912, 1294757372,
   1396182291, 1695183700, 1986661051, 2177026350, 2456956037,
   2730485921, 2820302411, 3259730800, 3345764771, 3516065817,
   3600352804, 4094571909, 275423344, 430227734, 506948616,
   659060556, 883997877, 958139571, 1322822218, 1537002063,
   1747873779, 1955562222, 2024104815, 2227730452, 2361852424,
   2428436474, 2756734187, 3204031479, 3329325298]

/-- SHA-256 initial hash words. -/
def H256init : List Nat :=
  [1779033703, 3144134277, 1013904242, 2773480762,
   1359893119, 2600822924, 528734635, 1541459225]

/-- Big-endian 8-byte rendering of a natural (the padded bit length). -/
def be64 (n : Nat) : Bytes :=
  [(n >>> 56) % 256, (n >>> 48) % 256, (n >>> 40) % 256, (n >>> 32) % 256,
   (n >>> 24) % 256, (n >>> 16) % 256, (n >>> 8) % 256, n % 256]

/-- FIPS 180-4 padding: a `0x80` byte, zeros to 56 mod 64, then the 64-bit
big-endian bit length. -/
def shaPad (msg : Bytes) : Bytes :=
  msg ++ 128 :: List.replicate ((64 + 56 - (msg.length + 1) % 64) % 64) 0
      ++ be64 (8 * msg.length)

/-- Pack bytes into big-endian 32-bit words, four at a time. -/
def bytesToWords : Bytes → List Nat
  | b0 :: b1 :: b2 :: b3 :: rest =>
      (((b0 &&& 255) <<< 24) + ((b1 &&& 255) <<< 16) + ((b2 &&& 255) <<< 8)
        + (b3 &&& 255)) :: bytesToWords rest
  | _ => []

/-- Message-schedule extension: the accumulator holds the schedule so far in
reverse, so `w[t-2]` is entry 1, `w[t-7]` entry 6, `w[t-15]` entry 14 and
`w[t-16]` entry 15. -/
def scheduleAux : Nat → List Nat → List Nat
  | 0, rev => rev
  | fuel + 1, rev =>
    let w := (smallSigma1 (rev.getD 1 0) + rev.getD 6 0
              + smallSigma0 (rev.getD 14 0) + rev.getD 15 0) % M32
    scheduleAux fuel (w :: rev)

/-- The 64-entry message schedule of a 16-word block. -/
def schedule (block : List Nat) : List Nat := (scheduleAux 48 block.reverse).reverse

/-- One SHA-256 round on the eight-word working state. -/
def shaRound (st : List Nat) (kw : Nat × Nat) : List Nat :=
  match st with
  | [a, b, c, d, e, f, g, h] =>
    let t1 := (h + bigSigma1 e + shaCh e f g + kw.1 + kw.2) % M32
    let t2 := (bigSigma0 a + shaMaj a b c) % M32
    [(t1 + t2) % M32, a, b, c, (d + t1) % M32, e, f, g]
  | _ => st

/-- SHA-256 compression of one 16-word block into the hash state. -/
def compress (h : List Nat) (block : List Nat) : List Nat :=
  let st := ((K256.zip (schedule block)).foldl shaRound h)
  (h.zip st).map (fun p => (p.1 + p.2) % M32)

/-- Iterate compression over the word stream, 16 words per block. -/
def shaBlocks : Nat → List Nat → List Nat → List Nat
  | _, h, [] => h
  | 0, h, _ => h
  | fuel + 1, h, ws => shaBlocks fuel (compress h (ws.take 16)) (ws.drop 16)

/-- Big-endian byte rendering of one 32-bit word. -/
def wordToBytes (w : Nat) : Bytes :=
  [(w >>> 24) % 256, (w >>> 16) % 256, (w >>> 8) % 256, w % 256]

/-- One-shot SHA-256 of a byte list, as a 32-byte digest. -/
def sha256 (msg : Bytes) : Bytes :=
  (shaBlocks (msg.length + 65) H256init (bytesToWords (shaPad msg))).flatMap wordToBytes

/-- A section of a parsed WebAssembly module, as `parity_wasm` keeps it:
a named custom section (section id 0) with an opaque payload, or a typed
section with its id (1 through 11) and an opaque body (typed payloads are
kept as bytes in this model). -/
inductive WSection where
  | custom (name : Bytes) (payload : Bytes)
  | standard (id : Nat) (body : Bytes)
deriving DecidableEq

/-- A parsed WebAssembly module: its ordered list of sections. -/
structure WModule where
  sections : List WSection
deriving DecidableEq

/-- The byte string of the custom section name `"jwt"`. -/
def jwtName : Bytes := [106, 119, 116]

/-- Payload accessor (`CustomSection::payload` for custom sections). -/
def sectionPayload : WSection → Bytes
  | .custom _ p => p
  | .standard _ b => b

/-- Does the section carry the given custom-section name? -/
def customNameIs (n : Bytes) : WSection → Bool
  | .custom name _ => name = n
  | .standard _ _ => false

/-- The serialized body of a section (for custom sections the
length-prefixed name followed by the payload). -/
def sectionBody : WSection → Bytes
  | .custom name payload => lebEncode name.length ++ name ++ payload
  | .standard _ body => body

/-- The section id byte. -/
def sectionId : WSection → Nat
  | .custom _ _ => 0
  | .standard id _ => id

/-- Serialized form of one section: id byte, LEB128 body size, body. -/
def serializeSection (s : WSection) : Bytes :=
  sectionId s :: (lebEncode (sectionBody s).length ++ sectionBody s)

/-- The WebAssembly preamble: magic `\x00asm` and version 1. -/
def wasmHeader : Bytes := [0, 97, 115, 109, 1, 0, 0, 0]

/-- `parity_wasm::serialize`: the preamble followed by the sections in
order.  (In the crate this returns a `Result`, failing only on internal
invariant violations that cannot arise for parsed modules, per spec 4.1;
the model is total.) -/
def serialize (m : WModule) : Bytes :=
  wasmHeader ++ (m.sections.map serializeSection).flatten

/-- Parse one section from the front of the buffer: id byte, LEB128 size,
then the body (for id 0 a length-prefixed UTF-8 name followed by the
payload; ids above 11 are invalid). -/
def parseSection : Bytes → Option (WSection × Bytes)
  | [] => none
  | id :: rest =>
    match lebDecode rest with
    | none => none
    | some (size, rest2) =>
      if size ≤ rest2.length then
        let body := rest2.take size
        let rest3 := rest2.drop size
        if id = 0 then
          match lebDecode body with
          | none => none
          | some (nlen, body2) =>
            if nlen ≤ body2.length then
              let name := body2.take nlen
              if utf8Valid name then some (.custom name (body2.drop nlen), rest3)
              else none
            else none
        else if 1 ≤ id && id ≤ 11 then some (.standard id body, rest3)
        else none
      else none

/-- Parse a whole byte stream as consecutive sections; the fuel bounds the
number of sections and is always taken larger than the stream length. -/
def parseSections : Nat → Bytes → Option (List WSection)
  | _, [] => some []
  | 0, _ :: _ => none
  | fuel + 1, bytes =>
    match parseSection bytes with
    | none => none
    | some (s, rest) =>
      match parseSections fuel rest with
      | none => none
      | some ss => some (s :: ss)

/-- `parity_wasm::deserialize_buffer`: check the preamble, then parse the
sections, consuming the whole buffer; any malformation is a `ParseError`. -/
def deserialize_buffer (bytes : Bytes) : WResult WModule :=
  if bytes.take 8 = wasmHeader then
    match parseSections (bytes.length + 1) (bytes.drop 8) with
    | some ss => .ok ⟨ss⟩
    | none => .error .ParseError
  else .error .ParseError

/-- Helper for `set_custom_section`: replace the payload of the first
custom section with the given name in place, or append a new custom
section at the end when none matches (the `parity_wasm` semantics). -/
def setCustomAux (name payload : Bytes) : List WSection → List WSection
  | [] => [.custom name payload]
  | s :: rest =>
    if customNameIs name s then .custom name payload :: rest
    else s :: setCustomAux name payload rest

/-- `Module::set_custom_section` of `parity_wasm`. -/
def set_custom_section (m : WModule) (name payload : Bytes) : WModule :=
  ⟨setCustomAux name payload m.sections⟩

/-- Helper for `clear_custom_section`: remove only the first section with
the given name (the `parity_wasm` semantics). -/
def clearCustomAux (name : Bytes) : List WSection → List WSection
  | [] => []
  | s :: rest => if customNameIs name s then rest else s :: clearCustomAux name rest

/-- `Module::clear_custom_section` of `parity_wasm`. -/
def clear_custom_section (m : WModule) (name : Bytes) : WModule :=
  ⟨clearCustomAux name m.sections⟩

/-- The `"jwt"`-named custom sections of a module in order:
`module.custom_sections().filter(|sect| sect.name() == "jwt")`. -/
def jwtSections (m : WModule) : List WSection :=
  m.sections.filter (customNameIs jwtName)

/-- Modelled from the spec: the `Claims` value object of `crate::jwt`
(whose source is not under `src/`), spec section 3: issuer and subject
public-key strings, optional capability and tag lists, issued-at,
optional not-before and expiry epoch seconds, a unique id, and the
`module_hash` field populated at embed time.  Strings are byte lists. -/
structure Claims where
  module_hash : Bytes
  expires : Option Nat
  id : Bytes
  issued_at : Nat
  issuer : Bytes
  subject : Bytes
  not_before : Option Nat
  tags : Option (List Bytes)
  caps : Option (List Bytes)
deriving DecidableEq

/-- Modelled from the spec: the `Token` of `crate::jwt`, pairing the raw
textual token with its decoded Claims (spec section 3). -/
structure Token where
  jwt : Bytes
  claims : Claims
deriving DecidableEq

/-- Modelled from the spec: an `nkeys::KeyPair`, an opaque signing
identity exposing a public-key string (spec section 3); the signing
primitive itself is out of scope (spec section 1). -/
structure KeyPair where
  public_key : Bytes
deriving DecidableEq

/-- Length-prefixed byte-string field encoding for the token body. -/
def encBytesF (s : Bytes) : Bytes := lebEncode s.length ++ s

/-- Optional-natural field encoding for the token body. -/
def encOptNat : Option Nat → Bytes
  | none => [0]
  | some n => 1 :: lebEncode n

/-- String-list field encoding for the token body. -/
def encList (l : List Bytes) : Bytes := lebEncode l.length ++ (l.map encBytesF).flatten

/-- Optional string-list field encoding for the token body. -/
def encOptList : Option (List Bytes) → Bytes
  | none => [0]
  | some l => 1 :: encList l

/-- The claim fields after `module_hash`, in declaration order. -/
def claimsTail (c : Claims) : Bytes :=
  encOptNat c.expires ++ encBytesF c.id ++ lebEncode c.issued_at
    ++ encBytesF c.issuer ++ encBytesF c.subject ++ encOptNat c.not_before
    ++ encOptList c.tags ++ encOptList c.caps

/-- The serialized body of a claims token: every field, length prefixed,
in declaration order. -/
def claimsBytes (c : Claims) : Bytes := encBytesF c.module_hash ++ claimsTail c

/-- Modelled from the spec: `Claims::encode(&KeyPair) -> String` of
`crate::jwt` (source not under `src/`).  The spec places the signature
algorithm and compact-token format out of scope (sections 1 and 6) and
requires only a textual token that the collaborating decoder inverts, so
the model renders the claims as an uppercase-hex ASCII string; the key
pair is consumed by the out-of-scope signature.  (In the crate this
returns a `Result`; the model is total and the caller wraps it in `ok`.) -/
def Claims.encode (c : Claims) (_kp : KeyPair) : Bytes :=
  hexUpperEncode (claimsBytes c)

/-- Parse a length-prefixed byte-string field. -/
def parseBytesF (bs : Bytes) : Option (Bytes × Bytes) :=
  match lebDecode bs with
  | none => none
  | some (n, rest) =>
    if n ≤ rest.length then some (rest.take n, rest.drop n) else none

/-- Parse an optional-natural field. -/
def parseOptNat : Bytes → Option (Option Nat × Bytes)
  | [] => none
  | 0 :: rest => some (none, rest)
  | 1 :: rest =>
    match lebDecode rest with
    | none => none
    | some (n, r) => some (some n, r)
  | _ => none

/-- Parse `count` length-prefixed byte strings. -/
def parseListAux : Nat → Bytes → Option (List Bytes × Bytes)
  | 0, bs => some ([], bs)
  | n + 1, bs =>
    match parseBytesF bs with
    | none => none
    | some (s, rest) =>
      match parseListAux n rest with
      | none => none
      | some (l, r) => some (s :: l, r)

/-- Parse a string-list field. -/
def parseList (bs : Bytes) : Option (List Bytes × Bytes) :=
  match lebDecode bs with
  | none => none
  | some (n, rest) => parseListAux n rest

/-- Parse an optional string-list field. -/
def parseOptList : Bytes → Option (Option (List Bytes) × Bytes)
  | [] => none
  | 0 :: rest => some (none, rest)
  | 1 :: rest =>
    match parseList rest with
    | none => none
    | some (l, r) => some (some l, r)
  | _ => none

/-- Parse a claims body back into its fields, in declaration order. -/
def parseClaims (bs : Bytes) : Option (Claims × Bytes) := do
  let (mh, r1) ← parseBytesF bs
  let (exp, r2) ← parseOptNat r1
  let (idv, r3) ← parseBytesF r2
  let (iat, r4) ← lebDecode r3
  let (iss, r5) ← parseBytesF r4
  let (sub, r6) ← parseBytesF r5
  let (nbf, r7) ← parseOptNat r6
  let (tgs, r8) ← parseOptList r7
  let (cps, r9) ← parseOptList r8
  some (⟨mh, exp, idv, iat, iss, sub, nbf, tgs, cps⟩, r9)

/-- Modelled from the spec: `Claims::decode(&str) -> Result<Claims>` of
`crate::jwt` (source not under `src/`): inverts `Claims.encode`, failing
with a `TokenDecodeError` on any malformed token (spec sections 4.5 and
6); signature verification is the out-of-scope collaborator concern. -/
def Claims.decode (jwt : Bytes) : WResult Claims :=
  match hexDecode jwt with
  | none => .error .TokenDecodeError
  | some bs =>
    match parseClaims bs with
    | none => .error .TokenDecodeError
    | some (c, rest) => if rest = [] then .ok c else .error .TokenDecodeError

/-- Modelled from the spec: `Claims::with_dates` of `crate::jwt` (source
not under `src/`), as invoked by `sign_buffer_with_claims`: issuer and
subject public keys, capability and tag lists, not-before and expiry
epoch seconds; `module_hash` starts empty (spec sections 3 and 4.4), and
the internally generated unique id and issued-at are fixed placeholders. -/
def Claims.with_dates (issuer subject : Bytes) (caps tags : Option (List Bytes))
    (not_before expires : Option Nat) : Claims :=
  ⟨[], expires, [], 0, issuer, subject, not_before, tags, caps⟩

/-- Rust `<&[u8] as Read>::read` into a 1024-byte buffer: yields the next
chunk of at most 1024 bytes and the remainder; reads from an in-memory
slice never fail. -/
def sliceRead (s : Bytes) : WResult (Bytes × Bytes) := .ok (s.take 1024, s.drop 1024)

/-- The read loop of `sha256_digest` (`src/wasm.rs` lines 113-119): read a
bounded chunk, stop on a zero-length read, otherwise update the running
context (modelled as the bytes accumulated so far) and continue.  The
fuel exceeds the number of reads for every in-memory slice; the
exhaustion branch models a reader that fails or never finishes. -/
def sha256_digest_loop : Nat → Bytes → Bytes → WResult Bytes
  | 0, _, _ => .error .IoError
  | fuel + 1, acc, rem =>
    match sliceRead rem with
    | .error e => .error e
    | .ok (chunk, rest) =>
      if chunk.length = 0 then .ok (sha256 acc)
      else sha256_digest_loop fuel (acc ++ chunk) rest

/-- `sha256_digest` of `src/wasm.rs` (lines 109-122) on an in-memory
slice: the chunked read loop folded into a SHA-256 context, finalized to
the digest. -/
def sha256_digest (reader : Bytes) : WResult Bytes :=
  sha256_digest_loop (reader.length + 1) [] reader

/-- `compute_hash_without_jwt` of `src/wasm.rs` (lines 124-131): clone the
module, clear the custom section named `"jwt"`, serialize, digest, and
render in uppercase hex.  (The model is pure, so the argument module is
untouched by construction, as the clone guarantees in the source.) -/
def compute_hash_without_jwt (module : WModule) : WResult Bytes := do
  let refmod := clear_custom_section module jwtName
  let modbytes := serialize refmod
  let digest ← sha256_digest modbytes
  .ok (hexUpperEncode digest)

/-- `extract_claims` of `src/wasm.rs` (lines 30-52): parse the buffer,
collect the `"jwt"`-named custom sections, return `none` when there are
none; otherwise decode the first section's payload as UTF-8 text, decode
the token, and compare the canonical hash with the declared
`module_hash`, failing with `InvalidModuleHash` on mismatch. -/
def extract_claims (contents : Bytes) : WResult (Option Token) := do
  let module ← deserialize_buffer contents
  match jwtSections module with
  | [] => .ok none
  | sect :: _ =>
    let jwt ← string_from_utf8 (sectionPayload sect)
    let claims ← Claims.decode jwt
    let hash ← compute_hash_without_jwt module
    if hash ≠ claims.module_hash then .error .InvalidModuleHash
    else .ok (some ⟨jwt, claims⟩)

/-- `embed_claims` of `src/wasm.rs` (lines 60-76): re-serialize the parsed
input, digest those bytes (without clearing any pre-existing `"jwt"`
section), store the uppercase-hex digest in a copy of the claims, sign
and encode the token, re-parse the original bytes, set the `"jwt"`
custom section to the token bytes, and serialize. -/
def embed_claims (orig_bytecode : Bytes) (claims : Claims) (kp : KeyPair) :
    WResult Bytes := do
  let module ← deserialize_buffer orig_bytecode
  let cleanbytes := serialize module
  let digest ← sha256_digest cleanbytes
  let claims2 := { claims with module_hash := hexUpperEncode digest }
  let encoded := Claims.encode claims2 kp
  let encvec := encoded
  let m ← deserialize_buffer orig_bytecode
  .ok (serialize (set_custom_section m jwtName encvec))

/-- Seconds per day, `SECS_PER_DAY` of `src/wasm.rs`. -/
def SECS_PER_DAY : Nat := 86400

/-- The 64-bit modulus: `u64` arithmetic wraps at this bound. -/
def U64 : Nat := 18446744073709551616

/-- `days_from_now_to_jwt_time` of `src/wasm.rs` (lines 105-107).  The
source reads the system clock through `since_the_epoch`; the model takes
the current epoch-second count (a `u64`, hence already below `2 ^ 64`) as
the explicit `now` argument (the injectable clock of spec section 9).
The computation `e * SECS_PER_DAY` and the following addition are `u64`
operations: in release builds each wraps modulo `2 ^ 64`, which is what
this model renders (a debug build would panic on overflow instead). -/
def days_from_now_to_jwt_time (now : Nat) (stamp : Option Nat) : Option Nat :=
  stamp.map (fun e => (now + e * SECS_PER_DAY % U64) % U64)

/-- `sign_buffer_with_claims` of `src/wasm.rs` (lines 78-96): build Claims
with the account key as issuer, the module key as subject, the given
capability and tag lists, and the day offsets converted to absolute epoch
seconds, then embed them signed by the account key.  `now` is the
explicit clock value (see `days_from_now_to_jwt_time`). -/
def sign_buffer_with_claims (now : Nat) (buf : Bytes) (mod_kp acct_kp : KeyPair)
    (expires_in_days not_before_days : Option Nat) (caps tags : List Bytes) :
    WResult Bytes :=
  let claims := Claims.with_dates acct_kp.public_key mod_kp.public_key
    (some caps) (some tags)
    (days_from_now_to_jwt_time now not_before_days)
    (days_from_now_to_jwt_time now expires_in_days)
  embed_claims buf claims acct_kp

/-- Taking the length of the left part of an append returns it. -/
theorem take_len_append {α : Type} (l r : List α) : (l ++ r).take l.length = l := by
  induction l with
  | nil => rfl
  | cons a t ih => simp [List.take, ih]

/-- Dropping the length of the left part of an append returns the right part. -/
theorem drop_len_append {α : Type} (l r : List α) : (l ++ r).drop l.length = r := by
  induction l with
  | nil => rfl
  | cons a t ih => simp [List.drop, ih]

/-- LEB128 decoding inverts encoding whenever the fuel covers the value. -/
theorem lebDecode_encodeAux :
    ∀ (fuel n : Nat) (r : Bytes), n ≤ fuel ∨ n < 128 →
      lebDecode (lebEncodeAux fuel n ++ r) = some (n, r) := by
  intro fuel
  induction fuel with
  | zero =>
    intro n r h
    have hn : n < 128 := by omega
    simp [lebEncodeAux, lebDecode, Nat.mod_eq_of_lt hn, hn]
  | succ f ih =>
    intro n r h
    by_cases hn : n < 128
    · simp [lebEncodeAux, hn, lebDecode]
    · have hbig : 128 ≤ n := by omega
      have hrec : n / 128 ≤ f ∨ n / 128 < 128 := by
        left
        have : n / 128 < n := Nat.div_lt_self (by omega) (by omega)
        omega
      simp only [lebEncodeAux, hn, if_false, List.cons_append]
      have hge : ¬ (n % 128 + 128 < 128) := by omega
      simp only [lebDecode, hge, if_false, ih (n / 128) r hrec]
      have hmd := Nat.mod_add_div n 128
      simp only [Option.some.injEq, Prod.mk.injEq, and_true]
      omega

/-- LEB128 decoding inverts the minimal encoding. -/
theorem lebDecode_encode (n : Nat) (r : Bytes) :
    lebDecode (lebEncode n ++ r) = some (n, r) :=
  lebDecode_encodeAux n n r (Or.inl le_rfl)

/-- Every byte of a LEB128 encoding is a byte value. -/
theorem lebEncodeAux_lt256 : ∀ (fuel n : Nat), ∀ b ∈ lebEncodeAux fuel n, b < 256 := by
  intro fuel
  induction fuel with
  | zero =>
    intro n b hb
    simp [lebEncodeAux] at hb
    omega
  | succ f ih =>
    intro n b hb
    by_cases hn : n < 128
    · simp [lebEncodeAux, hn] at hb
      omega
    · simp only [lebEncodeAux, hn, if_false, List.mem_cons] at hb
      rcases hb with hb | hb
      · have := Nat.mod_lt n (y := 128) (by omega)
        omega
      · exact ih (n / 128) b hb

/-- The hex digit of a nibble decodes back to the nibble. -/
theorem hexDigitVal_char (n : Nat) (h : n < 16) :
    hexDigitVal (hexDigitChar n) = some n := by
  unfold hexDigitChar hexDigitVal
  by_cases h10 : n < 10
  · simp only [h10, if_true]
    have c1 : (decide (48 ≤ 48 + n) && decide (48 + n ≤ 57)) = true := by
      simp only [Bool.and_eq_true, decide_eq_true_eq]
      omega
    simp [c1]
    omega
  · simp only [h10, if_false]
    have c1 : (decide (48 ≤ 55 + n) && decide (55 + n ≤ 57)) = false := by
      have hx : ¬ (55 + n ≤ 57) := by omega
      simp [hx]
    have c2 : (decide (65 ≤ 55 + n) && decide (55 + n ≤ 70)) = true := by
      simp only [Bool.and_eq_true, decide_eq_true_eq]
      omega
    simp [c1, c2]

/-- Hex decoding inverts hex encoding of genuine byte lists. -/
theorem hexDecode_encode :
    ∀ bs : Bytes, allLt256 bs = true → hexDecode (hexUpperEncode bs) = some bs := by
  intro bs
  induction bs with
  | nil => intro _; rfl
  | cons b t ih =>
    intro h
    simp only [allLt256, List.all_cons, Bool.and_eq_true, decide_eq_true_eq] at h
    have hdiv : b / 16 < 16 := by omega
    have hmod : b % 16 < 16 := by
      have := Nat.mod_lt b (y := 16) (by omega)
      omega
    have ht : allLt256 t = true := by
      simp only [allLt256, List.all_eq_true, decide_eq_true_eq]
      intro x hx
      have h2 := h.2
      simp only [allLt256, List.all_eq_true, decide_eq_true_eq] at h2
      exact h2 x hx
    rw [hexUpperEncode, hexDecode, hexDigitVal_char _ hdiv, hexDigitVal_char _ hmod,
      ih ht]
    simp only [Option.some.injEq, List.cons.injEq, and_true]
    have := Nat.div_add_mod b 16
    omega

/-- The characters of a hex rendering of genuine bytes are uppercase hex
ASCII: digits `0`-`9` or letters `A`-`F`. -/
theorem hexUpperEncode_chars :
    ∀ bs : Bytes, allLt256 bs = true →
      ∀ c ∈ hexUpperEncode bs, (48 ≤ c ∧ c ≤ 57) ∨ (65 ≤ c ∧ c ≤ 70) := by
  intro bs
  induction bs with
  | nil => intro _ c hc; simp [hexUpperEncode] at hc
  | cons b t ih =>
    intro h c hc
    simp only [allLt256, List.all_cons, Bool.and_eq_true, decide_eq_true_eq] at h
    have ht : allLt256 t = true := by
      simpa [allLt256] using h.2
    simp only [hexUpperEncode, List.mem_cons] at hc
    have hdiv : b / 16 < 16 := by omega
    have hmod : b % 16 < 16 := by
      have := Nat.mod_lt b (y := 16) (by omega)
      omega
    rcases hc with hc | hc | hc
    · subst hc
      by_cases hlt : b / 16 < 10 <;> simp [hexDigitChar, hlt] <;> omega
    · subst hc
      by_cases hlt : b % 16 < 10 <;> simp [hexDigitChar, hlt] <;> omega
    · exact ih ht c hc

/-- Uppercase hex characters are ASCII. -/
theorem hexUpperEncode_ascii (bs : Bytes) (h : allLt256 bs = true) :
    ∀ c ∈ hexUpperEncode bs, c ≤ 127 := by
  intro c hc
  rcases hexUpperEncode_chars bs h c hc with h1 | h1 <;> omega

/-- The hex rendering has twice the length of the byte list. -/
theorem hexUpperEncode_length : ∀ bs : Bytes, (hexUpperEncode bs).length = 2 * bs.length := by
  intro bs
  induction bs with
  | nil => rfl
  | cons b t ih => simp [hexUpperEncode, ih]; omega

/-- An ASCII byte keeps the automaton in the accepting state. -/
theorem utf8Step_ascii (b : Nat) (hb : b ≤ 127) : utf8Step 0 b = 0 := by
  simp [utf8Step, hb]

/-- An all-ASCII byte list is valid UTF-8. -/
theorem utf8Valid_ascii : ∀ bs : Bytes, (∀ c ∈ bs, c ≤ 127) → utf8Valid bs = true := by
  intro bs
  induction bs with
  | nil => intro _; rfl
  | cons b t ih =>
    intro h
    have hb : b ≤ 127 := h b (List.mem_cons_self b t)
    have ht : ∀ c ∈ t, c ≤ 127 := fun c hc => h c (List.mem_cons_of_mem b hc)
    have hstep := utf8Step_ascii b hb
    simp only [utf8Valid, List.foldl_cons, hstep]
    exact ih ht

/-- With fuel exceeding the remaining bytes, the read loop accumulates the
whole remainder and finalizes the one-shot digest. -/
theorem sha256_digest_loop_ok :
    ∀ (fuel : Nat) (acc rem : Bytes), rem.length < fuel →
      sha256_digest_loop fuel acc rem = .ok (sha256 (acc ++ rem)) := by
  intro fuel
  induction fuel with
  | zero => intro acc rem h; omega
  | succ f ih =>
    intro acc rem h
    match rem with
    | [] => simp [sha256_digest_loop, sliceRead]
    | b :: t =>
      have hchunk : ((b :: t).take 1024).length ≠ 0 := by
        simp [List.length_take]
      have hlen : ((b :: t).drop 1024).length < f := by
        simp only [List.length_drop] at *
        simp only [List.length_cons] at h ⊢
        omega
      simp only [sha256_digest_loop, sliceRead, hchunk, if_false,
        ih (acc ++ (b :: t).take 1024) ((b :: t).drop 1024) hlen]
      rw [List.append_assoc, List.take_append_drop]

/-- `sha256_digest` on an in-memory slice always succeeds with the
one-shot SHA-256 of the whole slice. -/
theorem sha256_digest_eq (bytes : Bytes) : sha256_digest bytes = .ok (sha256 bytes) := by
  have h := sha256_digest_loop_ok (bytes.length + 1) [] bytes (by omega)
  simpa [sha256_digest] using h

/-- A SHA-256 round preserves the length of the working state. -/
theorem shaRound_length (st : List Nat) (kw : Nat × Nat) :
    (shaRound st kw).length = st.length := by
  unfold shaRound
  split <;> simp_all

/-- Folding rounds preserves the length of the working state. -/
theorem foldl_shaRound_length :
    ∀ (l : List (Nat × Nat)) (st : List Nat), (l.foldl shaRound st).length = st.length := by
  intro l
  induction l with
  | nil => intro st; rfl
  | cons kw t ih =>
    intro st
    simp only [List.foldl_cons, ih, shaRound_length]

/-- Compression preserves the length of the hash state. -/
theorem compress_length (h block : List Nat) : (compress h block).length = h.length := by
  unfold compress
  simp [foldl_shaRound_length]

/-- Iterated compression preserves the length of the hash state. -/
theorem shaBlocks_length :
    ∀ (fuel : Nat) (h ws : List Nat), (shaBlocks fuel h ws).length = h.length := by
  intro fuel
  induction fuel with
  | zero =>
    intro h ws
    match ws with
    | [] => rfl
    | w :: t => rfl
  | succ f ih =>
    intro h ws
    match ws with
    | [] => rfl
    | w :: t =>
      simp only [shaBlocks, ih, compress_length]

/-- A SHA-256 digest is 32 bytes long. -/
theorem sha256_length (msg : Bytes) : (sha256 msg).length = 32 := by
  unfold sha256
  rw [List.length_flatMap]
  have hlen := shaBlocks_length (msg.length + 65) H256init (bytesToWords (shaPad msg))
  have hsum : ∀ l : List Nat, (l.map (List.length ∘ wordToBytes)).sum = 4 * l.length := by
    intro l
    induction l with
    | nil => rfl
    | cons w t ih =>
      simp only [List.map_cons, List.sum_cons, ih, Function.comp_apply, wordToBytes,
        List.length_cons, List.length_nil]
      omega
  rw [hsum, hlen]
  rfl

/-- Every entry of a SHA-256 digest is a byte value. -/
theorem sha256_lt256 (msg : Bytes) : allLt256 (sha256 msg) = true := by
  unfold sha256
  simp only [allLt256, List.all_eq_true, decide_eq_true_eq]
  intro b hb
  rw [List.mem_flatMap] at hb
  obtain ⟨w, _, hw⟩ := hb
  have h256 : (256 : Nat) > 0 := by omega
  simp only [wordToBytes, List.mem_cons, List.mem_singleton] at hw
  rcases hw with h | h | h | h | h <;> first
    | (subst h; exact Nat.mod_lt _ h256)
    | simp_all

/-- A section the parser can produce: custom sections carry valid UTF-8
names, typed sections carry ids 1 through 11. -/
def wfSection : WSection → Bool
  | .custom name _ => utf8Valid name
  | .standard id _ => 1 ≤ id && id ≤ 11

/-- All sections of the module are parser-producible. -/
def wfModule (m : WModule) : Bool := m.sections.all wfSection

/-- Parsing inverts serialization of one well-formed section, leaving the
rest of the input. -/
theorem parseSection_serialize (s : WSection) (r : Bytes) (hwf : wfSection s = true) :
    parseSection (serializeSection s ++ r) = some (s, r) := by
  cases s with
  | custom name payload =>
    have hvalid : utf8Valid name = true := hwf
    have h1 : serializeSection (.custom name payload) ++ r
        = 0 :: (lebEncode (lebEncode name.length ++ name ++ payload).length
            ++ ((lebEncode name.length ++ name ++ payload) ++ r)) := by
      simp [serializeSection, sectionId, sectionBody, List.append_assoc]
    rw [h1]
    simp only [parseSection]
    rw [lebDecode_encode]
    have hle : (lebEncode name.length ++ name ++ payload).length
        ≤ ((lebEncode name.length ++ name ++ payload) ++ r).length := by
      simp
    simp only [hle, if_true, take_len_append, drop_len_append, if_pos]
    have h2 : lebEncode name.length ++ name ++ payload
        = lebEncode name.length ++ (name ++ payload) := by
      rw [List.append_assoc]
    rw [h2, lebDecode_encode]
    have hle2 : name.length ≤ (name ++ payload).length := by simp
    simp only [hle2, if_true, take_len_append, drop_len_append, hvalid, if_pos]
  | standard id body =>
    have hid : (1 ≤ id && id ≤ 11) = true := hwf
    have hid1 : ¬ (id = 0) := by
      simp only [Bool.and_eq_true, decide_eq_true_eq] at hid
      omega
    have h1 : serializeSection (.standard id body) ++ r
        = id :: (lebEncode body.length ++ (body ++ r)) := by
      simp [serializeSection, sectionId, sectionBody, List.append_assoc]
    rw [h1]
    simp only [parseSection]
    rw [lebDecode_encode]
    have hle : body.length ≤ (body ++ r).length := by simp
    simp only [hle, if_true, take_len_append, drop_len_append, hid1, if_false, hid,
      if_pos, if_neg, not_false_iff]

/-- One serialized section is never empty. -/
theorem serializeSection_length_pos (s : WSection) : 1 ≤ (serializeSection s).length := by
  cases s <;> simp [serializeSection]

/-- Parsing inverts serialization of a stream of well-formed sections
whenever the fuel exceeds the stream length. -/
theorem parseSections_stream :
    ∀ (ss : List WSection) (fuel : Nat), (∀ s ∈ ss, wfSection s = true) →
      ((ss.map serializeSection).flatten).length < fuel →
      parseSections fuel ((ss.map serializeSection).flatten) = some ss := by
  intro ss
  induction ss with
  | nil =>
    intro fuel _ _
    simp [parseSections]
  | cons s t ih =>
    intro fuel hwf hlen
    have hws : wfSection s = true := hwf s (List.mem_cons_self s t)
    have hwt : ∀ x ∈ t, wfSection x = true :=
      fun x hx => hwf x (List.mem_cons_of_mem s hx)
    simp only [List.map_cons, List.flatten_cons] at hlen ⊢
    have hpos := serializeSection_length_pos s
    match fuel with
    | 0 =>
      exfalso
      simp only [List.length_append] at hlen
      omega
    | f + 1 =>
      have hlen2 : ((t.map serializeSection).flatten).length < f := by
        simp only [List.length_append] at hlen
        omega
      have hstep : parseSections (f + 1) (serializeSection s ++ (t.map serializeSection).flatten)
          = (match parseSection (serializeSection s ++ (t.map serializeSection).flatten) with
             | none => none
             | some (sec, rest2) =>
               match parseSections f rest2 with
               | none => none
               | some ss2 => some (sec :: ss2)) := by
        cases s with
        | custom name payload => rfl
        | standard id body => rfl
      rw [hstep, parseSection_serialize s _ hws]
      show (match parseSections f ((t.map serializeSection).flatten) with
            | none => none
            | some ss2 => some (s :: ss2)) = some (s :: t)
      rw [ih f hwt hlen2]

/-- Deserialization inverts serialization on well-formed modules. -/
theorem deserialize_serialize (m : WModule) (hwf : wfModule m = true) :
    deserialize_buffer (serialize m) = .ok m := by
  have htake : (serialize m).take 8 = wasmHeader := by
    show (wasmHeader ++ (m.sections.map serializeSection).flatten).take 8 = wasmHeader
    have h8 : (8 : Nat) = wasmHeader.length := rfl
    rw [h8, take_len_append]
  have hdrop : (serialize m).drop 8 = (m.sections.map serializeSection).flatten := by
    show (wasmHeader ++ (m.sections.map serializeSection).flatten).drop 8
        = (m.sections.map serializeSection).flatten
    have h8 : (8 : Nat) = wasmHeader.length := rfl
    rw [h8, drop_len_append]
  have hfuel : ((m.sections.map serializeSection).flatten).length < (serialize m).length + 1 := by
    simp only [serialize, List.length_append]
    omega
  have hall : ∀ s ∈ m.sections, wfSection s = true := by
    intro s hs
    simp only [wfModule, List.all_eq_true] at hwf
    exact hwf s hs
  rw [deserialize_buffer, if_pos htake, hdrop,
    parseSections_stream m.sections ((serialize m).length + 1) hall hfuel]

/-- Any section the parser yields is well-formed. -/
theorem parseSection_wf (bs : Bytes) (s : WSection) (r : Bytes)
    (h : parseSection bs = some (s, r)) : wfSection s = true := by
  match bs with
  | [] => simp [parseSection] at h
  | id :: rest =>
    simp only [parseSection] at h
    split at h
    · exact absurd h (by simp)
    · split at h
      · split at h
        · split at h
          · exact absurd h (by simp)
          · split at h
            · split at h
              · simp only [Option.some.injEq, Prod.mk.injEq] at h
                obtain ⟨hs, _⟩ := h
                subst hs
                simp_all [wfSection]
              · exact absurd h (by simp)
            · exact absurd h (by simp)
        · split at h
          · simp only [Option.some.injEq, Prod.mk.injEq] at h
            obtain ⟨hs, _⟩ := h
            subst hs
            simp_all [wfSection]
          · exact absurd h (by simp)
      · exact absurd h (by simp)

/-- Any section list the stream parser yields is well-formed throughout. -/
theorem parseSections_wf :
    ∀ (fuel : Nat) (bs : Bytes) (ss : List WSection),
      parseSections fuel bs = some ss → ∀ s ∈ ss, wfSection s = true := by
  intro fuel
  induction fuel with
  | zero =>
    intro bs ss h s hs
    match bs with
    | [] =>
      simp only [parseSections, Option.some.injEq] at h
      subst h
      simp at hs
    | b :: t => simp [parseSections] at h
  | succ f ih =>
    intro bs ss h s hs
    match bs with
    | [] =>
      simp only [parseSections, Option.some.injEq] at h
      subst h
      simp at hs
    | b :: t =>
      have hstep : parseSections (f + 1) (b :: t)
          = (match parseSection (b :: t) with
             | none => none
             | some (sec, rest) =>
               match parseSections f rest with
               | none => none
               | some ss2 => some (sec :: ss2)) := rfl
      rw [hstep] at h
      cases hsec : parseSection (b :: t) with
      | none =>
        rw [hsec] at h
        have h2 : (none : Option (List WSection)) = some ss := h
        exact absurd h2 (by simp)
      | some p =>
        obtain ⟨sec, rest⟩ := p
        rw [hsec] at h
        have h2 : (match parseSections f rest with
                   | none => none
                   | some ss2 => some (sec :: ss2)) = some ss := h
        cases hss2 : parseSections f rest with
        | none =>
          rw [hss2] at h2
          exact absurd h2 (by simp)
        | some ss2 =>
          rw [hss2] at h2
          have h3 : some (sec :: ss2) = some ss := h2
          simp only [Option.some.injEq] at h3
          subst h3
          simp only [List.mem_cons] at hs
          rcases hs with hs | hs
          · subst hs
            exact parseSection_wf _ _ _ hsec
          · exact ih rest ss2 hss2 s hs

/-- Any module the deserializer yields is well-formed. -/
theorem deserialize_wf (bs : Bytes) (m : WModule)
    (h : deserialize_buffer bs = .ok m) : wfModule m = true := by
  simp only [deserialize_buffer] at h
  split at h
  · split at h
    · simp only [Except.ok.injEq] at h
      subst h
      simp only [wfModule, List.all_eq_true]
      next ss hss => exact fun s hs => parseSections_wf _ _ _ hss s hs
    · exact absurd h (by simp)
  · exact absurd h (by simp)

/-- The deserializer only ever fails with a `ParseError`. -/
theorem deserialize_error_kind (bs : Bytes) (e : ErrorKind)
    (h : deserialize_buffer bs = .error e) : e = .ParseError := by
  simp only [deserialize_buffer] at h
  split at h
  · split at h
    · exact absurd h (by simp)
    · simp only [Except.error.injEq] at h
      exact h.symm
  · simp only [Except.error.injEq] at h
    exact h.symm

/-- `setCustomAux` appends a fresh section when nothing matches. -/
theorem setCustomAux_nomatch (name p : Bytes) :
    ∀ l : List WSection, l.filter (customNameIs name) = [] →
      setCustomAux name p l = l ++ [.custom name p] := by
  intro l
  induction l with
  | nil => intro _; rfl
  | cons s t ih =>
    intro h
    rw [List.filter_cons] at h
    by_cases hp : customNameIs name s = true
    · rw [if_pos hp] at h
      exact absurd h (by simp)
    · rw [if_neg (by simp [hp])] at h
      simp only [setCustomAux, hp, Bool.false_eq_true, if_false, ih h, List.cons_append]

/-- Clearing the appended fresh section restores the unmatched list. -/
theorem clearCustomAux_append_nomatch (name p : Bytes) :
    ∀ l : List WSection, l.filter (customNameIs name) = [] →
      clearCustomAux name (l ++ [.custom name p]) = l := by
  intro l
  induction l with
  | nil =>
    intro _
    simp [clearCustomAux, customNameIs]
  | cons s t ih =>
    intro h
    rw [List.filter_cons] at h
    by_cases hp : customNameIs name s = true
    · rw [if_pos hp] at h
      exact absurd h (by simp)
    · rw [if_neg (by simp [hp])] at h
      simp only [List.cons_append, clearCustomAux, hp, Bool.false_eq_true, if_false]
      show s :: clearCustomAux name (t ++ [WSection.custom name p]) = s :: t
      rw [ih h]

/-- Filtering after appending one matching section to an unmatched list
yields exactly that section. -/
theorem filter_append_match (name p : Bytes) (l : List WSection)
    (h : l.filter (customNameIs name) = []) :
    (l ++ [WSection.custom name p]).filter (customNameIs name)
      = [WSection.custom name p] := by
  rw [List.filter_append, h]
  simp [customNameIs]

/-- Removing the first matching section drops the head of the filtered
sections: the remaining matches survive the clearing. -/
theorem filter_clearCustomAux (name : Bytes) :
    ∀ l : List WSection,
      (clearCustomAux name l).filter (customNameIs name)
        = (l.filter (customNameIs name)).tail := by
  intro l
  induction l with
  | nil => rfl
  | cons s t ih =>
    by_cases hp : customNameIs name s = true
    · simp only [clearCustomAux, hp, if_true, List.filter_cons, List.tail_cons, if_pos]
    · simp only [clearCustomAux, hp, Bool.false_eq_true, if_false, List.filter_cons]
      exact ih

/-- A well-formed module stays well-formed after appending the `"jwt"`
token section. -/
theorem wfModule_append_jwt (m : WModule) (p : Bytes) (hwf : wfModule m = true) :
    wfModule ⟨m.sections ++ [.custom jwtName p]⟩ = true := by
  have hjwt : wfSection (.custom jwtName p) = true := by
    show utf8Valid jwtName = true
    decide
  simp only [wfModule] at hwf ⊢
  rw [List.all_append]
  simp [hwf, hjwt]

/-- Parsing inverts the length-prefixed byte-string field encoding. -/
theorem parseBytesF_enc (s r : Bytes) : parseBytesF (encBytesF s ++ r) = some (s, r) := by
  simp only [encBytesF, parseBytesF, List.append_assoc, lebDecode_encode]
  have hle : s.length ≤ (s ++ r).length := by simp
  simp only [hle, if_true, take_len_append, drop_len_append, if_pos]

/-- Parsing inverts the optional-natural field encoding. -/
theorem parseOptNat_enc (o : Option Nat) (r : Bytes) :
    parseOptNat (encOptNat o ++ r) = some (o, r) := by
  cases o with
  | none => simp [encOptNat, parseOptNat]
  | some n =>
    simp only [encOptNat, List.cons_append, parseOptNat, lebDecode_encode]

/-- Parsing inverts the concatenation of length-prefixed strings. -/
theorem parseListAux_enc :
    ∀ (l : List Bytes) (r : Bytes),
      parseListAux l.length ((l.map encBytesF).flatten ++ r) = some (l, r) := by
  intro l
  induction l with
  | nil => intro r; simp [parseListAux]
  | cons s t ih =>
    intro r
    simp only [List.length_cons, List.map_cons, List.flatten_cons, List.append_assoc,
      parseListAux, parseBytesF_enc, ih]

/-- Parsing inverts the string-list field encoding. -/
theorem parseList_enc (l : List Bytes) (r : Bytes) :
    parseList (encList l ++ r) = some (l, r) := by
  simp only [encList, parseList, List.append_assoc, lebDecode_encode, parseListAux_enc]

/-- Parsing inverts the optional string-list field encoding. -/
theorem parseOptList_enc (o : Option (List Bytes)) (r : Bytes) :
    parseOptList (encOptList o ++ r) = some (o, r) := by
  cases o with
  | none => simp [encOptList, parseOptList]
  | some l =>
    simp only [encOptList, List.cons_append, parseOptList, parseList_enc]

/-- Parsing inverts the whole claims-body encoding. -/
theorem parseClaims_enc (c : Claims) (r : Bytes) :
    parseClaims (claimsBytes c ++ r) = some (c, r) := by
  obtain ⟨mh, exp, idv, iat, iss, sub, nbf, tgs, cps⟩ := c
  simp only [claimsBytes, claimsTail, parseClaims, List.append_assoc, parseBytesF_enc,
    parseOptNat_enc, lebDecode_encode, parseOptList_enc, Option.bind_eq_bind,
    Option.some_bind]

/-- Byte-validity distributes over append. -/
theorem allLt256_append (a b : Bytes) :
    allLt256 (a ++ b) = (allLt256 a && allLt256 b) := by
  simp [allLt256, List.all_append]

/-- LEB128 encodings consist of byte values. -/
theorem lebEncode_lt256 (n : Nat) : allLt256 (lebEncode n) = true := by
  simp only [allLt256, List.all_eq_true, decide_eq_true_eq]
  exact fun b hb => lebEncodeAux_lt256 n n b hb

/-- Hex renderings of genuine bytes consist of byte values. -/
theorem hexUpperEncode_lt256 (bs : Bytes) (h : allLt256 bs = true) :
    allLt256 (hexUpperEncode bs) = true := by
  simp only [allLt256, List.all_eq_true, decide_eq_true_eq]
  intro c hc
  have := hexUpperEncode_ascii bs h c hc
  omega

/-- A length-prefixed field of genuine bytes consists of byte values. -/
theorem encBytesF_lt256 (s : Bytes) (h : allLt256 s = true) :
    allLt256 (encBytesF s) = true := by
  simp only [encBytesF, allLt256_append, lebEncode_lt256, h, Bool.and_self]

/-- The claims tail ignores the `module_hash` field. -/
theorem claimsTail_update (c : Claims) (h : Bytes) :
    claimsTail { c with module_hash := h } = claimsTail c := rfl

/-- The claims body splits into the hash field and the tail. -/
theorem allLt256_claimsBytes (c : Claims)
    (hmh : allLt256 c.module_hash = true) (ht : allLt256 (claimsTail c) = true) :
    allLt256 (claimsBytes c) = true := by
  simp only [claimsBytes, allLt256_append, encBytesF_lt256 _ hmh, ht, Bool.and_self]

/-- Decoding inverts encoding of any claims value whose rendered body
consists of genuine bytes. -/
theorem Claims.decode_encode (c : Claims) (kp : KeyPair)
    (h : allLt256 (claimsBytes c) = true) :
    Claims.decode (Claims.encode c kp) = .ok c := by
  have hp : parseClaims (claimsBytes c) = some (c, []) := by
    have hpe := parseClaims_enc c []
    simpa using hpe
  have h1 : Claims.decode (Claims.encode c kp)
      = (match parseClaims (claimsBytes c) with
         | none => Except.error ErrorKind.TokenDecodeError
         | some (c2, rest) =>
             if rest = [] then Except.ok c2 else Except.error ErrorKind.TokenDecodeError) := by
    unfold Claims.decode Claims.encode
    rw [hexDecode_encode _ h]
  rw [h1, hp]
  rfl

/-- A token rendered by `Claims.encode` is ASCII, hence valid UTF-8. -/
theorem encode_utf8Valid (c : Claims) (kp : KeyPair)
    (h : allLt256 (claimsBytes c) = true) :
    utf8Valid (Claims.encode c kp) = true := by
  unfold Claims.encode
  exact utf8Valid_ascii _ (hexUpperEncode_ascii _ h)

/-- Binding a successful result applies the continuation. -/
theorem wbind_ok {α β : Type} (a : α) (f : α → WResult β) :
    (Except.ok a >>= f) = f a := rfl

/-- Binding an error propagates it. -/
theorem wbind_error {α β : Type} (e : ErrorKind) (f : α → WResult β) :
    ((Except.error e : WResult α) >>= f) = .error e := rfl

/-- `compute_hash_without_jwt` always succeeds, with the uppercase-hex
SHA-256 of the module serialized after clearing its (first) `"jwt"`
section. -/
theorem compute_hash_eq (m : WModule) :
    compute_hash_without_jwt m
      = .ok (hexUpperEncode (sha256 (serialize (clear_custom_section m jwtName)))) := by
  show sha256_digest (serialize (clear_custom_section m jwtName))
      >>= (fun digest => Except.ok (hexUpperEncode digest))
      = .ok (hexUpperEncode (sha256 (serialize (clear_custom_section m jwtName))))
  rw [sha256_digest_eq, wbind_ok]

/-- `extract_claims` on a parseable buffer is the token pipeline on the
parsed module. -/
theorem extract_claims_spec (bytes : Bytes) (m : WModule)
    (hdes : deserialize_buffer bytes = .ok m) :
    extract_claims bytes
      = (match jwtSections m with
         | [] => .ok none
         | sect :: _ => (do
             let jwt ← string_from_utf8 (sectionPayload sect)
             let claims ← Claims.decode jwt
             let hash ← compute_hash_without_jwt m
             if hash ≠ claims.module_hash then .error .InvalidModuleHash
             else .ok (some ⟨jwt, claims⟩) : WResult (Option Token))) := by
  unfold extract_claims
  rw [hdes, wbind_ok]

/-- `embed_claims` on a parseable buffer succeeds and returns the
re-serialized module with the token set as its `"jwt"` custom section,
the token recording the hash of the full normalized input (its
pre-existing `"jwt"` section, if any, included). -/
theorem embed_claims_spec (b : Bytes) (c : Claims) (k : KeyPair) (m : WModule)
    (hdes : deserialize_buffer b = .ok m) :
    embed_claims b c k = .ok (serialize (set_custom_section m jwtName
      (Claims.encode { c with module_hash := hexUpperEncode (sha256 (serialize m)) } k))) := by
  unfold embed_claims
  rw [hdes]
  simp only [wbind_ok, sha256_digest_eq]

/-- Setting the `"jwt"` section of a module without one appends it. -/
theorem set_nomatch (m : WModule) (p : Bytes) (h : jwtSections m = []) :
    (set_custom_section m jwtName p).sections = m.sections ++ [.custom jwtName p] :=
  setCustomAux_nomatch jwtName p m.sections h

/-- Clearing the `"jwt"` section just set on a module without one
restores the module. -/
theorem clear_set_nomatch (m : WModule) (p : Bytes) (h : jwtSections m = []) :
    clear_custom_section (set_custom_section m jwtName p) jwtName = m := by
  unfold clear_custom_section set_custom_section
  rw [setCustomAux_nomatch jwtName p m.sections h,
    clearCustomAux_append_nomatch jwtName p m.sections h]

/-- The just-set `"jwt"` section is the only one found afterwards. -/
theorem jwtSections_set_nomatch (m : WModule) (p : Bytes) (h : jwtSections m = []) :
    jwtSections (set_custom_section m jwtName p) = [.custom jwtName p] := by
  unfold jwtSections
  rw [set_nomatch m p h]
  exact filter_append_match jwtName p m.sections h

/-- Setting the `"jwt"` section preserves module well-formedness when no
`"jwt"` section existed. -/
theorem wfModule_set_nomatch (m : WModule) (p : Bytes) (h : jwtSections m = [])
    (hwf : wfModule m = true) :
    wfModule (set_custom_section m jwtName p) = true := by
  have heq : wfModule (set_custom_section m jwtName p)
      = wfModule ⟨m.sections ++ [.custom jwtName p]⟩ := by
    unfold wfModule
    rw [set_nomatch m p h]
  rw [heq]
  exact wfModule_append_jwt m p hwf

/-- The working copy of the claims that `embed_claims` signs: the input
claims with `module_hash` set to the hash of the normalized input. -/
def embeddedClaims (c : Claims) (m : WModule) : Claims :=
  { c with module_hash := hexUpperEncode (sha256 (serialize m)) }

/-- The byte buffer `embed_claims` returns for a parseable input. -/
def embeddedBuffer (c : Claims) (k : KeyPair) (m : WModule) : Bytes :=
  serialize (set_custom_section m jwtName (Claims.encode (embeddedClaims c m) k))

/-- Restatement of `embed_claims_spec` through the helpers. -/
theorem embed_claims_spec2 (b : Bytes) (c : Claims) (k : KeyPair) (m : WModule)
    (hdes : deserialize_buffer b = .ok m) :
    embed_claims b c k = .ok (embeddedBuffer c k m) :=
  embed_claims_spec b c k m hdes

set_option maxHeartbeats 2000000 in
/-- C1 (amended): for every buffer that parses to a module carrying no
`"jwt"` custom section, and every claims value whose non-hash fields are
genuine byte strings, embedding succeeds and extracting the result yields
a token preserving the issuer and the capabilities. -/
theorem c1_roundtrip_no_prior_jwt (b : Bytes) (c : Claims) (k : KeyPair) (m : WModule)
    (hdes : deserialize_buffer b = .ok m)
    (hnojwt : jwtSections m = [])
    (htail : allLt256 (claimsTail c) = true) :
    ∃ (buf : Bytes) (token : Token),
      embed_claims b c k = .ok buf ∧
      extract_claims buf = .ok (some token) ∧
      token.claims.issuer = c.issuer ∧
      token.claims.caps = c.caps := by
  refine ⟨embeddedBuffer c k m,
    ⟨Claims.encode (embeddedClaims c m) k, embeddedClaims c m⟩,
    embed_claims_spec2 b c k m hdes, ?_, rfl, rfl⟩
  have hlt : allLt256 (claimsBytes (embeddedClaims c m)) = true := by
    apply allLt256_claimsBytes
    · exact hexUpperEncode_lt256 _ (sha256_lt256 _)
    · rw [embeddedClaims, claimsTail_update]
      exact htail
  have hwfm : wfModule m = true := deserialize_wf b m hdes
  have hwfM2 : wfModule (set_custom_section m jwtName
      (Claims.encode (embeddedClaims c m) k)) = true :=
    wfModule_set_nomatch m _ hnojwt hwfm
  have hdesM2 := deserialize_serialize _ hwfM2
  rw [embeddedBuffer]
  rw [extract_claims_spec _ _ hdesM2]
  rw [jwtSections_set_nomatch m _ hnojwt]
  show (do
      let jwt ← string_from_utf8 (Claims.encode (embeddedClaims c m) k)
      let claims ← Claims.decode jwt
      let hash ← compute_hash_without_jwt (set_custom_section m jwtName
        (Claims.encode (embeddedClaims c m) k))
      if hash ≠ claims.module_hash then .error .InvalidModuleHash
      else .ok (some ⟨jwt, claims⟩) : WResult (Option Token))
    = .ok (some ⟨Claims.encode (embeddedClaims c m) k, embeddedClaims c m⟩)
  have hsfu : string_from_utf8 (Claims.encode (embeddedClaims c m) k)
      = .ok (Claims.encode (embeddedClaims c m) k) := by
    unfold string_from_utf8
    rw [if_pos (encode_utf8Valid _ k hlt)]
  rw [hsfu, wbind_ok, Claims.decode_encode _ k hlt, wbind_ok]
  have hhash : compute_hash_without_jwt (set_custom_section m jwtName
      (Claims.encode (embeddedClaims c m) k))
      = .ok (hexUpperEncode (sha256 (serialize m))) := by
    rw [compute_hash_eq, clear_set_nomatch m _ hnojwt]
  rw [hhash, wbind_ok]
  have hmh : (embeddedClaims c m).module_hash = hexUpperEncode (sha256 (serialize m)) := rfl
  rw [if_neg (by rw [hmh]; simp)]

/-- `extract_claims` on a parseable buffer with at least one `"jwt"`
section runs the token pipeline on the first such section. -/
theorem extract_claims_spec_cons (bytes : Bytes) (m : WModule) (sect : WSection)
    (rest : List WSection) (hdes : deserialize_buffer bytes = .ok m)
    (hjs : jwtSections m = sect :: rest) :
    extract_claims bytes = (do
      let jwt ← string_from_utf8 (sectionPayload sect)
      let claims ← Claims.decode jwt
      let hash ← compute_hash_without_jwt m
      if hash ≠ claims.module_hash then .error .InvalidModuleHash
      else .ok (some ⟨jwt, claims⟩) : WResult (Option Token)) := by
  rw [extract_claims_spec bytes m hdes, hjs]

/-- Flip one byte of a buffer: replace the byte at the given position by
its bitwise complement, leaving everything else unchanged. -/
def flipAt (bytes : Bytes) (i : Nat) : Bytes :=
  bytes.take i ++ (match bytes.drop i with
    | [] => []
    | b :: rest => (255 - b % 256) :: rest)

/-- C4: once the buffer parses, the first `"jwt"` payload decodes as text
and as a token, and the canonical hash is computed, extraction is decided
by exact equality of byte strings: a mismatch is an `InvalidModuleHash`
error, a match returns the token pairing the raw text with the decoded
claims. -/
theorem c4_hash_gate (bytes : Bytes) (m : WModule) (sect : WSection)
    (rest : List WSection) (jwt : Bytes) (claims : Claims) (hash : Bytes)
    (hdes : deserialize_buffer bytes = .ok m)
    (hjs : jwtSections m = sect :: rest)
    (hsfu : string_from_utf8 (sectionPayload sect) = .ok jwt)
    (hdec : Claims.decode jwt = .ok claims)
    (hhash : compute_hash_without_jwt m = .ok hash) :
    (hash ≠ claims.module_hash → extract_claims bytes = .error .InvalidModuleHash) ∧
    (hash = claims.module_hash → extract_claims bytes = .ok (some ⟨jwt, claims⟩)) := by
  rw [extract_claims_spec_cons bytes m sect rest hdes hjs]
  rw [hsfu, wbind_ok, hdec, wbind_ok, hhash, wbind_ok]
  constructor
  · intro h
    rw [if_pos h]
  · intro h
    rw [if_neg (not_not_intro h)]

/-- C3 (amended): flipping a byte of a signed buffer outside the `"jwt"`
token still lets extraction reach the hash gate whenever the mutated
buffer parses and its first `"jwt"` payload decodes; the extraction then
fails with `InvalidModuleHash` as soon as the mutated module's canonical
hash differs from the hash the token declares. -/
theorem c3_flip_tamper (buf : Bytes) (i : Nat) (m : WModule) (sect : WSection)
    (rest : List WSection) (jwt : Bytes) (claims : Claims) (hash : Bytes)
    (hdes : deserialize_buffer (flipAt buf i) = .ok m)
    (hjs : jwtSections m = sect :: rest)
    (hsfu : string_from_utf8 (sectionPayload sect) = .ok jwt)
    (hdec : Claims.decode jwt = .ok claims)
    (hhash : compute_hash_without_jwt m = .ok hash)
    (hne : hash ≠ claims.module_hash) :
    extract_claims (flipAt buf i) = .error .InvalidModuleHash := by
  rw [extract_claims_spec_cons (flipAt buf i) m sect rest hdes hjs]
  rw [hsfu, wbind_ok, hdec, wbind_ok, hhash, wbind_ok, if_pos hne]

/-- C6: a parseable module without a `"jwt"` custom section extracts to
the no-token result, not an error. -/
theorem c6_absent_is_none (bytes : Bytes) (m : WModule)
    (hdes : deserialize_buffer bytes = .ok m)
    (hnone : jwtSections m = []) :
    extract_claims bytes = .ok none := by
  rw [extract_claims_spec bytes m hdes, hnone]

/-- C7: a non-UTF-8 `"jwt"` payload makes extraction fail with the
encoding error, before token decoding or hashing. -/
theorem c7_bad_utf8 (bytes : Bytes) (m : WModule) (sect : WSection)
    (rest : List WSection)
    (hdes : deserialize_buffer bytes = .ok m)
    (hjs : jwtSections m = sect :: rest)
    (hbad : utf8Valid (sectionPayload sect) = false) :
    extract_claims bytes = .error .EncodingError := by
  rw [extract_claims_spec_cons bytes m sect rest hdes hjs]
  have hsfu : string_from_utf8 (sectionPayload sect) = .error .EncodingError := by
    unfold string_from_utf8
    rw [hbad]
    simp
  rw [hsfu, wbind_error]

/-- C9: with several `"jwt"` sections, extraction decodes only the first
section's payload, and the hash it checks clears only that first section,
so the remaining duplicates stay in the hashed module. -/
theorem c9_first_section_only (bytes : Bytes) (m : WModule) (s1 s2 : WSection)
    (rest : List WSection)
    (hdes : deserialize_buffer bytes = .ok m)
    (hjs : jwtSections m = s1 :: s2 :: rest) :
    extract_claims bytes = (do
      let jwt ← string_from_utf8 (sectionPayload s1)
      let claims ← Claims.decode jwt
      let hash ← compute_hash_without_jwt m
      if hash ≠ claims.module_hash then .error .InvalidModuleHash
      else .ok (some ⟨jwt, claims⟩) : WResult (Option Token)) ∧
    jwtSections (clear_custom_section m jwtName) = s2 :: rest := by
  constructor
  · exact extract_claims_spec_cons bytes m s1 (s2 :: rest) hdes hjs
  · show (clearCustomAux jwtName m.sections).filter (customNameIs jwtName) = s2 :: rest
    rw [filter_clearCustomAux jwtName m.sections]
    have hjs2 : m.sections.filter (customNameIs jwtName) = s1 :: s2 :: rest := hjs
    rw [hjs2, List.tail_cons]

/-- C5: `compute_hash_without_jwt` is exactly the uppercase-hex SHA-256 of
the module re-serialized with its `"jwt"` custom section cleared (the
input valued module itself is untouched: the model is a pure function of
it, mirroring the clone in the source), and the result is a 64-character
string of uppercase hexadecimal characters. -/
theorem c5_canonical_hash (m : WModule) :
    compute_hash_without_jwt m
      = .ok (hexUpperEncode (sha256 (serialize (clear_custom_section m jwtName)))) ∧
    (getOk (compute_hash_without_jwt m) []).length = 64 ∧
    (∀ ch ∈ getOk (compute_hash_without_jwt m) [],
      (48 ≤ ch ∧ ch ≤ 57) ∨ (65 ≤ ch ∧ ch ≤ 70)) := by
  refine ⟨compute_hash_eq m, ?_, ?_⟩
  · rw [compute_hash_eq]
    show (hexUpperEncode (sha256 (serialize (clear_custom_section m jwtName)))).length = 64
    rw [hexUpperEncode_length, sha256_length]
  · rw [compute_hash_eq]
    show ∀ ch ∈ hexUpperEncode (sha256 (serialize (clear_custom_section m jwtName))),
      (48 ≤ ch ∧ ch ≤ 57) ∨ (65 ≤ ch ∧ ch ≤ 70)
    exact hexUpperEncode_chars _ (sha256_lt256 _)

/-- C8 (amended): the day-offset conversion maps `none` to `none` and,
whenever the `u64` sum `now + d * 86400` does not overflow, `some d` to
exactly `now + d * 86400` epoch seconds (beyond that bound the release
arithmetic wraps modulo `2 ^ 64`), and the convenience signer embeds
claims whose not-before and expiry fields are exactly those converted
values, signed by the account key. -/
theorem c8_day_conversion (now d : Nat) (buf : Bytes) (mod_kp acct_kp : KeyPair)
    (e n : Option Nat) (caps tags : List Bytes)
    (hlt : now + d * 86400 < U64) :
    days_from_now_to_jwt_time now none = none ∧
    days_from_now_to_jwt_time now (some d) = some (now + d * 86400) ∧
    sign_buffer_with_claims now buf mod_kp acct_kp e n caps tags
      = embed_claims buf (Claims.with_dates acct_kp.public_key mod_kp.public_key
          (some caps) (some tags) (days_from_now_to_jwt_time now n)
          (days_from_now_to_jwt_time now e)) acct_kp ∧
    (Claims.with_dates acct_kp.public_key mod_kp.public_key (some caps) (some tags)
      (days_from_now_to_jwt_time now n) (days_from_now_to_jwt_time now e)).not_before
      = days_from_now_to_jwt_time now n ∧
    (Claims.with_dates acct_kp.public_key mod_kp.public_key (some caps) (some tags)
      (days_from_now_to_jwt_time now n) (days_from_now_to_jwt_time now e)).expires
      = days_from_now_to_jwt_time now e := by
  refine ⟨rfl, ?_, rfl, rfl, rfl⟩
  show some ((now + d * SECS_PER_DAY % U64) % U64) = some (now + d * 86400)
  have h86 : SECS_PER_DAY = 86400 := rfl
  have h1 : d * 86400 % U64 = d * 86400 := Nat.mod_eq_of_lt (by omega)
  rw [h86, h1, Nat.mod_eq_of_lt hlt]

/-- `string_from_utf8` only ever fails with an `EncodingError`. -/
theorem string_from_utf8_error_kind (bs : Bytes) (e : ErrorKind)
    (h : string_from_utf8 bs = .error e) : e = .EncodingError := by
  unfold string_from_utf8 at h
  split at h
  · exact absurd h (by simp)
  · simp only [Except.error.injEq] at h
    exact h.symm

/-- `Claims.decode` only ever fails with a `TokenDecodeError`. -/
theorem decode_error_kind (jwt : Bytes) (e : ErrorKind)
    (h : Claims.decode jwt = .error e) : e = .TokenDecodeError := by
  unfold Claims.decode at h
  split at h
  · simp only [Except.error.injEq] at h
    exact h.symm
  · split at h
    · simp only [Except.error.injEq] at h
      exact h.symm
    · split at h
      · exact absurd h (by simp)
      · simp only [Except.error.injEq] at h
        exact h.symm

/-- C10: hashing an in-memory slice terminates with the one-shot digest
(the read loop stops after finitely many bounded reads and never reaches
its failure branch), so neither `embed_claims` nor `extract_claims` can
ever surface an `IoError`. -/
theorem c10_no_io_error :
    (∀ bytes : Bytes, sha256_digest bytes = .ok (sha256 bytes)) ∧
    (∀ (b : Bytes) (c : Claims) (k : KeyPair) (e : ErrorKind),
      embed_claims b c k = .error e → e ≠ .IoError) ∧
    (∀ (bytes : Bytes) (e : ErrorKind),
      extract_claims bytes = .error e → e ≠ .IoError) := by
  refine ⟨sha256_digest_eq, ?_, ?_⟩
  · intro b c k e h
    cases hdb : deserialize_buffer b with
    | error pe =>
      have hembed : embed_claims b c k = .error pe := by
        unfold embed_claims
        rw [hdb, wbind_error]
      rw [hembed] at h
      simp only [Except.error.injEq] at h
      have := deserialize_error_kind b pe hdb
      subst h
      rw [this]
      simp
    | ok m =>
      rw [embed_claims_spec b c k m hdb] at h
      exact absurd h (by simp)
  · intro bytes e h
    cases hdb : deserialize_buffer bytes with
    | error pe =>
      have hex : extract_claims bytes = .error pe := by
        unfold extract_claims
        rw [hdb, wbind_error]
      rw [hex] at h
      simp only [Except.error.injEq] at h
      have := deserialize_error_kind bytes pe hdb
      subst h
      rw [this]
      simp
    | ok m =>
      rw [extract_claims_spec bytes m hdb] at h
      cases hjs : jwtSections m with
      | nil =>
        rw [hjs] at h
        exact absurd h (by simp)
      | cons sect rest =>
        rw [hjs] at h
        have h2 : (do
            let jwt ← string_from_utf8 (sectionPayload sect)
            let claims ← Claims.decode jwt
            let hash ← compute_hash_without_jwt m
            if hash ≠ claims.module_hash then .error .InvalidModuleHash
            else .ok (some ⟨jwt, claims⟩) : WResult (Option Token)) = .error e := h
        cases hsfu : string_from_utf8 (sectionPayload sect) with
        | error ee =>
          rw [hsfu, wbind_error] at h2
          simp only [Except.error.injEq] at h2
          have := string_from_utf8_error_kind _ ee hsfu
          subst h2
          rw [this]
          simp
        | ok jwt =>
          rw [hsfu, wbind_ok] at h2
          cases hdec : Claims.decode jwt with
          | error ed =>
            rw [hdec, wbind_error] at h2
            simp only [Except.error.injEq] at h2
            have := decode_error_kind _ ed hdec
            subst h2
            rw [this]
            simp
          | ok claims =>
            rw [hdec, wbind_ok, compute_hash_eq, wbind_ok] at h2
            by_cases hne : hexUpperEncode (sha256 (serialize (clear_custom_section m jwtName)))
                ≠ claims.module_hash
            · rw [if_pos hne] at h2
              simp only [Except.error.injEq] at h2
              subst h2
              simp
            · rw [if_neg hne] at h2
              exact absurd h2 (by simp)

/-- A concrete signing key pair for the concrete scenarios. -/
def kpW : KeyPair := ⟨[65, 75]⟩

/-- Concrete claims: issuer `AK`, subject `MK`, two capabilities. -/
def claimsW : Claims :=
  ⟨[], none, [105], 0, [65, 75], [77, 75], none, none, some [[99, 49], [99, 50]]⟩

/-- Fallback claims value for total projections. -/
def defClaims : Claims := ⟨[], none, [], 0, [], [], none, none, none⟩

/-- Fallback module value for total projections. -/
def defModule : WModule := ⟨[]⟩

/-- A concrete module with one typed section and no `"jwt"` section. -/
def modClean : WModule := ⟨[.standard 11 [7, 7, 7]]⟩

/-- The serialized clean module: 8 header bytes, then the typed section at
byte positions 8 through 12. -/
def bClean : Bytes := serialize modClean

/-- The signed buffer for the clean module: its `"jwt"` custom section
occupies every byte position from 13 on. -/
def bufClean : Bytes := getOk (embed_claims bClean claimsW kpW) []

/-- A concrete module that already carries a `"jwt"` custom section. -/
def modJwt1 : WModule := ⟨[.custom jwtName [121]]⟩

/-- Serialized form of `modJwt1`. -/
def bJwt1 : Bytes := serialize modJwt1

/-- Another concrete module with a pre-existing `"jwt"` custom section. -/
def modJwt2 : WModule := ⟨[.custom jwtName [122]]⟩

/-- Serialized form of `modJwt2`. -/
def bJwt2 : Bytes := serialize modJwt2

/-- The parse of `bJwt2`. -/
def mJwt2 : WModule := getOk (deserialize_buffer bJwt2) defModule

/-- A concrete module whose `"jwt"` payload is not valid UTF-8. -/
def modBad : WModule := ⟨[.custom jwtName [255]]⟩

/-- Serialized form of `modBad`. -/
def bBad : Bytes := serialize modBad

/-- A concrete module with two `"jwt"` custom sections. -/
def modTwo : WModule := ⟨[.custom jwtName [65], .custom jwtName [66]]⟩

/-- Serialized form of `modTwo`. -/
def bTwo : Bytes := serialize modTwo

set_option maxRecDepth 40000 in
/-- C1, counterexample: the claim quantifies over every valid module
buffer, but for the valid buffer `bJwt1` - which already carries a
`"jwt"` custom section - embedding succeeds and extraction of the very
result fails with `InvalidModuleHash` instead of returning the token:
`embed_claims` hashes the re-serialized input without clearing the
pre-existing `"jwt"` section, while `extract_claims` compares against the
hash of the jwt-cleared module. -/
theorem c1_counterexample :
    embed_claims bJwt1 claimsW kpW = .ok (getOk (embed_claims bJwt1 claimsW kpW) []) ∧
    extract_claims (getOk (embed_claims bJwt1 claimsW kpW) [])
      = .error .InvalidModuleHash := by
  constructor
  · decide
  · decide

/-- C1, witness: the amended round trip at the concrete clean module,
claims and key pair. -/
theorem c1_witness :
    ∃ (buf : Bytes) (token : Token),
      embed_claims bClean claimsW kpW = .ok buf ∧
      extract_claims buf = .ok (some token) ∧
      token.claims.issuer = claimsW.issuer ∧
      token.claims.caps = claimsW.caps :=
  c1_roundtrip_no_prior_jwt bClean claimsW kpW modClean (by decide) (by decide) (by decide)

set_option maxRecDepth 40000 in
/-- C2: evaluation of the code at the failing input `bJwt2` (a module
with a pre-existing `"jwt"` section).  The hash `embed_claims` signs -
over the re-serialized module with the old `"jwt"` section still in
place - differs from the canonical jwt-cleared hash of the same module,
so the two sides do not use one normalized representation, and the
embedded output immediately fails extraction with `InvalidModuleHash`. -/
theorem c2_embed_hash_not_canonical :
    hexUpperEncode (sha256 (serialize mJwt2)) ≠ getOk (compute_hash_without_jwt mJwt2) [] ∧
    embed_claims bJwt2 claimsW kpW = .ok (getOk (embed_claims bJwt2 claimsW kpW) []) ∧
    extract_claims (getOk (embed_claims bJwt2 claimsW kpW) [])
      = .error .InvalidModuleHash := by
  refine ⟨by decide, by decide, by decide⟩

set_option maxRecDepth 40000 in
/-- C3, counterexample: flipping byte 0 of the signed buffer `bufClean` -
a magic-header byte, outside the `"jwt"` custom section that starts at
position 13 - yields a `ParseError` from extraction, not the
`InvalidModuleHash` the claim promises for every such flip. -/
theorem c3_counterexample :
    extract_claims (flipAt bufClean 0) = .error .ParseError ∧
    extract_claims (flipAt bufClean 0) ≠ .error .InvalidModuleHash := by
  constructor
  · decide
  · decide

/-- The parse of the signed clean buffer with byte 10 flipped (a typed
section payload byte, outside the `"jwt"` section). -/
def mFlip : WModule := getOk (deserialize_buffer (flipAt bufClean 10)) defModule

/-- First `"jwt"` section of the flipped module. -/
def sFlip : WSection := (jwtSections mFlip).headD (.standard 1 [])

/-- Token text of the flipped module (unchanged by the flip). -/
def jwtFlip : Bytes := getOk (string_from_utf8 (sectionPayload sFlip)) []

/-- Decoded claims of the flipped module's token. -/
def claimsFlip : Claims := getOk (Claims.decode jwtFlip) defClaims

/-- Canonical hash of the flipped module. -/
def hashFlip : Bytes := getOk (compute_hash_without_jwt mFlip) []

set_option maxRecDepth 40000 in
set_option maxHeartbeats 1000000 in
/-- C3, witness: flipping byte 10 of `bufClean` (inside the typed
section's payload, outside the `"jwt"` section) leaves the buffer
parseable and the token intact but changes the canonical hash, and
extraction indeed fails with `InvalidModuleHash`. -/
theorem c3_witness : extract_claims (flipAt bufClean 10) = .error .InvalidModuleHash :=
  c3_flip_tamper bufClean 10 mFlip sFlip (jwtSections mFlip).tail jwtFlip claimsFlip
    hashFlip (by decide) (by decide) (by decide) (by decide) (by decide) (by decide)

/-- The parse of the signed clean buffer. -/
def mEmb : WModule := getOk (deserialize_buffer bufClean) defModule

/-- First `"jwt"` section of the signed clean buffer. -/
def sEmb : WSection := (jwtSections mEmb).headD (.standard 1 [])

/-- Token text carried by the signed clean buffer. -/
def jwtEmb : Bytes := getOk (string_from_utf8 (sectionPayload sEmb)) []

/-- Decoded claims of the signed clean buffer. -/
def claimsEmb : Claims := getOk (Claims.decode jwtEmb) defClaims

/-- Canonical hash of the signed clean buffer's module. -/
def hashEmb : Bytes := getOk (compute_hash_without_jwt mEmb) []

set_option maxRecDepth 40000 in
set_option maxHeartbeats 1000000 in
/-- C4, witness: at the signed clean buffer the computed hash equals the
declared `module_hash` exactly, so extraction returns the token pairing
the raw token text with the decoded claims. -/
theorem c4_witness : extract_claims bufClean = .ok (some ⟨jwtEmb, claimsEmb⟩) :=
  (c4_hash_gate bufClean mEmb sEmb (jwtSections mEmb).tail jwtEmb claimsEmb hashEmb
    (by decide) (by decide) (by decide) (by decide) (by decide)).2 (by decide)

/-- C6, witness: the concrete clean module extracts to no token. -/
theorem c6_witness : extract_claims bClean = .ok none :=
  c6_absent_is_none bClean modClean (by decide) (by decide)

/-- C7, witness: the concrete module with the byte `255` as its `"jwt"`
payload fails extraction with the encoding error. -/
theorem c7_witness : extract_claims bBad = .error .EncodingError :=
  c7_bad_utf8 bBad modBad (.custom jwtName [255]) [] (by decide) (by decide) (by decide)

/-- C9, witness: the concrete module with two `"jwt"` sections runs the
pipeline on the first section only, and clearing leaves the second. -/
theorem c9_witness :
    extract_claims bTwo = (do
      let jwt ← string_from_utf8 (sectionPayload (WSection.custom jwtName [65]))
      let claims ← Claims.decode jwt
      let hash ← compute_hash_without_jwt modTwo
      if hash ≠ claims.module_hash then .error .InvalidModuleHash
      else .ok (some ⟨jwt, claims⟩) : WResult (Option Token)) ∧
    jwtSections (clear_custom_section modTwo jwtName) = [WSection.custom jwtName [66]] :=
  c9_first_section_only bTwo modTwo (.custom jwtName [65]) (.custom jwtName [66]) []
    (by decide) (by decide)

/-- C10, witness: the digest loop on a concrete slice, and the no-IoError
guarantee applied to the concrete failing inputs of both pipelines. -/
theorem c10_witness :
    sha256_digest [0, 97, 115, 109] = .ok (sha256 [0, 97, 115, 109]) ∧
    ErrorKind.ParseError ≠ ErrorKind.IoError ∧
    ErrorKind.ParseError ≠ ErrorKind.IoError :=
  ⟨c10_no_io_error.1 [0, 97, 115, 109],
   c10_no_io_error.2.1 [] claimsW kpW .ParseError (by decide),
   c10_no_io_error.2.2 [] .ParseError (by decide)⟩

/-- C5, witness: the canonical-hash characterization applied to the
concrete clean module, with the 64-character length evaluated there. -/
theorem c5_witness :
    compute_hash_without_jwt modClean
      = .ok (hexUpperEncode (sha256 (serialize (clear_custom_section modClean jwtName)))) ∧
    (getOk (compute_hash_without_jwt modClean) []).length = 64 :=
  ⟨(c5_canonical_hash modClean).1, (c5_canonical_hash modClean).2.1⟩

/-- C8, counterexample: at the caller-reachable day count `2 ^ 63` the
`u64` product `d * 86400` wraps (here all the way to zero, since
`86400 * 2 ^ 63` is a multiple of `2 ^ 64`), so the converted value is
not `now + d * 86400`: the release-mode code stores the wrapped epoch
value instead. -/
theorem c8_counterexample :
    days_from_now_to_jwt_time 0 (some 9223372036854775808)
      ≠ some (0 + 9223372036854775808 * 86400) ∧
    days_from_now_to_jwt_time 0 (some 9223372036854775808) = some 0 := by
  constructor
  · decide
  · decide

/-- C8, witness: the amended conversion theorem applied at a concrete
clock value and a 30-day offset, where no overflow occurs. -/
theorem c8_witness :
    days_from_now_to_jwt_time 1000 none = none ∧
    days_from_now_to_jwt_time 1000 (some 30) = some (1000 + 30 * 86400) ∧
    sign_buffer_with_claims 1000 bClean kpW kpW (some 30) (some 30) [] []
      = embed_claims bClean (Claims.with_dates kpW.public_key kpW.public_key
          (some []) (some []) (days_from_now_to_jwt_time 1000 (some 30))
          (days_from_now_to_jwt_time 1000 (some 30))) kpW ∧
    (Claims.with_dates kpW.public_key kpW.public_key (some []) (some [])
      (days_from_now_to_jwt_time 1000 (some 30))
      (days_from_now_to_jwt_time 1000 (some 30))).not_before
      = days_from_now_to_jwt_time 1000 (some 30) ∧
    (Claims.with_dates kpW.public_key kpW.public_key (some []) (some [])
      (days_from_now_to_jwt_time 1000 (some 30))
      (days_from_now_to_jwt_time 1000 (some 30))).expires
      = days_from_now_to_jwt_time 1000 (some 30) :=
  c8_day_conversion 1000 30 bClean kpW kpW (some 30) (some 30) [] [] (by decide)
